import Mathlib

/-!
Verification development for the `hostm` hosts-file tool (`src/main.rs`).

The tool's core is pure text transformation: it reads the hosts file into a
string, transforms it, and writes it back.  We embed the transformation
functions `update_existing_domain`, `remove_domain`, `add_new_domain` and the
report computed by `search_domain` as functions over `List Char`, together
with the two regular expressions they use, Rust's `str::lines` splitting and
`Vec::join("\n")`.  Timestamps are an opaque parameter `now` (the spec treats
time formatting as an opaque current-time-string dependency); the verbose
flag is carried wherever the source takes it.  The regex `\b` word boundary
is modelled on the ASCII fragment (word characters are ASCII letters, digits
and underscore), which covers all inputs considered here.
-/

set_option autoImplicit false

namespace Hostm

/-- Strings are modelled as lists of characters. -/
abbrev Str := List Char

/-- Characters of the POSIX `[[:space:]]` class used by the regex crate:
space, tab, newline, vertical tab, form feed, carriage return. -/
def isPosixSpace (c : Char) : Bool :=
  c == ' ' || c == '\t' || c == '\n' || c == '\x0b' || c == '\x0c' || c == '\r'

/-- Word characters for the regex `\b` boundary (ASCII fragment):
letters, digits and underscore. -/
def isWordChar (c : Char) : Bool := c.isAlphanum || c == '_'

/-- Strip one trailing occurrence of `c`, returning `none` when the list does
not end with `c` (Rust `str::strip_suffix` with a single character). -/
def stripSuffix1 (c : Char) (l : Str) : Option Str :=
  if l.getLast? = some c then some l.dropLast else none

/-- Per-segment map inside Rust `str::lines`: remove one trailing newline,
and when a newline was removed also one trailing carriage return. -/
def linesMap (l : Str) : Str :=
  match stripSuffix1 '\n' l with
  | none => l
  | some l2 =>
    match stripSuffix1 '\r' l2 with
    | none => l2
    | some l3 => l3

/-- Model of Rust `str::split_inclusive('\n')`: split after every newline,
keeping the newline at the end of its segment; the empty string yields no
segments. -/
def splitInclusiveNl : Str → List Str
  | [] => []
  | c :: cs =>
    if c = '\n' then [c] :: splitInclusiveNl cs
    else
      match splitInclusiveNl cs with
      | [] => [[c]]
      | l :: ls => (c :: l) :: ls

/-- Model of Rust `str::lines`, used by every operation to cut the hosts file
content into lines. -/
def rustLines (s : Str) : List Str := (splitInclusiveNl s).map linesMap

/-- Model of `Vec::join("\n")`, used to reassemble the content. -/
def joinNl : List Str → Str
  | [] => []
  | [l] => l
  | l :: ls => l ++ '\n' :: joinNl ls

/-- Trailing chunk re-appended by every mutating operation:
`if content.ends_with('\n') { "\n" } else { "" }`. -/
def trailNl (content : Str) : Str :=
  if content.getLast? = some '\n' then ['\n'] else []

/-- Consume a `[0-9]+\.` group: one-or-more digits then a literal dot,
returning the rest.  Greedy maximal munch is exact for this pattern because a
digit can never match the dot, so backtracking to a shorter digit run never
helps. -/
def digitsThenDot (l : Str) : Option Str :=
  if l.takeWhile Char.isDigit = [] then none
  else
    match l.dropWhile Char.isDigit with
    | '.' :: r => some r
    | _ => none

/-- Test for a `[0-9]+[[:space:]]+` prefix: one-or-more digits then at least
one whitespace character (only the first whitespace character matters for an
`is_match` test, and a digit can never match the whitespace class). -/
def digitsThenSpace (l : Str) : Bool :=
  if l.takeWhile Char.isDigit = [] then false
  else
    match l.dropWhile Char.isDigit with
    | c :: _ => isPosixSpace c
    | [] => false

/-- Model of `Regex::new(r"^([0-9]+\.){3}[0-9]+[[:space:]]+").is_match(line)`
(main.rs lines 211, 240, 264): the line starts with four dot-separated digit
groups followed by whitespace. -/
def ipRegexMatch (l : Str) : Bool :=
  match digitsThenDot l with
  | none => false
  | some r1 =>
    match digitsThenDot r1 with
    | none => false
    | some r2 =>
      match digitsThenDot r2 with
      | none => false
      | some r3 => digitsThenSpace r3

/-- Whether position `i` of `l` holds a word character (out of range counts
as non-word, as at the edges of a regex subject). -/
def wordAt (l : Str) (i : Nat) : Bool :=
  match l[i]? with
  | some c => isWordChar c
  | none => false

/-- Whether a regex word boundary `\b` holds at position `i` of `l`,
i.e. between `l[i-1]` and `l[i]`: exactly one side is a word character. -/
def boundaryAt (l : Str) (i : Nat) : Bool :=
  (if i = 0 then false else wordAt l (i - 1)) != wordAt l i

/-- Model of `Regex::new(&format!(r"\b{}\b", regex::escape(domain)))`
applied with `is_match(line)` (main.rs lines 212, 241, 265): since
`regex::escape` makes the domain a literal, the pattern matches exactly when
the domain occurs at some position with a word boundary on each side. -/
def domainTokenMatch (domain l : Str) : Bool :=
  (List.range (l.length + 1)).any fun i =>
    domain.isPrefixOf (l.drop i) && boundaryAt l i && boundaryAt l (i + domain.length)

/-- Conjunction of the two regex tests applied to one line
(`ip_regex.is_match(line) && domain_regex.is_match(line)`,
main.rs lines 220, 246, 272). -/
def lineMatches (domain l : Str) : Bool := ipRegexMatch l && domainTokenMatch domain l

/-- Error outcomes of the three mutating operations (the `anyhow::bail!`
sites of `update_existing_domain`, `remove_domain`, `add_new_domain`). -/
inductive HostsError where
  | domainNotFound
  | domainAlreadyExists
  deriving DecidableEq

/-- Replacement line written by `update`:
`format!("{} {} {}", ip, domain, comment)` with
`comment = format!("# updated by hostm {}", timestamp)` (main.rs 216, 224). -/
def updatedLine (ip domain now : Str) : Str :=
  ip ++ [' '] ++ domain ++ [' '] ++ "# updated by hostm ".toList ++ now

/-- New line appended by `create`:
`format!("{} {} {}", ip, domain, comment)` with
`comment = format!("# created by hostm {}", timestamp)` (main.rs 268, 281). -/
def createdLine (ip domain now : Str) : Str :=
  ip ++ [' '] ++ domain ++ [' '] ++ "# created by hostm ".toList ++ now

/-- The update loop of main.rs lines 219-228: replace the first line
satisfying both regexes and stop there; `none` when no line matches. -/
def replaceFirst (domain ip now : Str) : List Str → Option (List Str)
  | [] => none
  | l :: ls =>
    if lineMatches domain l then some (updatedLine ip domain now :: ls)
    else
      match replaceFirst domain ip now ls with
      | none => none
      | some ls2 => some (l :: ls2)

/-- Model of `update_existing_domain` (main.rs lines 210-236).  `now` is the
opaque current-time string; `v` is the verbose flag, which in the source only
controls a `println!`. -/
def update_existing_domain (content domain ip now : Str) (v : Bool) : Except HostsError Str :=
  match replaceFirst domain ip now (rustLines content) with
  | none => .error .domainNotFound
  | some ls => .ok (joinNl ls ++ trailNl content)

/-- Model of `remove_domain` (main.rs lines 239-260).  The source sets its
`found` flag only inside `if verbose && matched`, which the `let found`
below reproduces: `found` holds exactly when the verbose flag is on and some
line matched. -/
def remove_domain (content domain : Str) (v : Bool) : Except HostsError Str :=
  let ls := rustLines content
  let kept := ls.filter fun l => !(lineMatches domain l)
  let found := v && ls.any fun l => lineMatches domain l
  if found then .ok (joinNl kept ++ trailNl content)
  else .error .domainNotFound

/-- Model of `add_new_domain` (main.rs lines 263-285). -/
def add_new_domain (content domain ip now : Str) (v : Bool) : Except HostsError Str :=
  let ls := rustLines content
  if ls.any fun l => lineMatches domain l then .error .domainAlreadyExists
  else .ok (joinNl (ls ++ [createdLine ip domain now]) ++ trailNl content)

/-- Substring containment, Rust `str::contains(&str)`; `search` applies it to
the raw line, not the regexes. -/
def containsSeq (needle l : Str) : Bool :=
  (List.range (l.length + 1)).any fun i => needle.isPrefixOf (l.drop i)

/-- The report printed by `search_domain` (main.rs lines 160-169): for every
line containing the domain as a raw substring, its 1-based number
(`line_num + 1`) and full text. -/
def searchReport (content domain : Str) : List (Nat × Str) :=
  (rustLines content).enum.filterMap fun p =>
    if containsSeq domain p.2 then some (p.1 + 1, p.2) else none

/-- Write-observing driver for the `update` subcommand (main.rs lines
74-95): the new content is passed to `write_hosts_file` only when
`update_existing_domain` succeeded.  The second component lists the contents
handed to the writer, in order. -/
def update_run (content domain ip now : Str) (v : Bool) :
    Except HostsError Unit × List Str :=
  match update_existing_domain content domain ip now v with
  | .error e => (.error e, [])
  | .ok new => (.ok (), [new])

/-- Write-observing driver for the `delete` subcommand (main.rs lines
98-119). -/
def delete_run (content domain : Str) (v : Bool) :
    Except HostsError Unit × List Str :=
  match remove_domain content domain v with
  | .error e => (.error e, [])
  | .ok new => (.ok (), [new])

/-- Write-observing driver for the `create` subcommand (main.rs lines
122-143). -/
def create_run (content domain ip now : Str) (v : Bool) :
    Except HostsError Unit × List Str :=
  match add_new_domain content domain ip now v with
  | .error e => (.error e, [])
  | .ok new => (.ok (), [new])

/-- Write-observing driver for the `search` subcommand (main.rs lines
146-176): it prints the report and never calls `write_hosts_file`. -/
def search_run (content domain : Str) (v : Bool) :
    List (Nat × Str) × List Str :=
  (searchReport content domain, [])

/-- Nonempty all-digit string, the spec's `<digits>` group. -/
def IsDigitStr (s : Str) : Prop := s ≠ [] ∧ ∀ c ∈ s, c.isDigit = true

/-- Nonempty all-whitespace string. -/
def IsSpaceStr (s : Str) : Prop := s ≠ [] ∧ ∀ c ∈ s, isPosixSpace c = true

/-- Address-prefix check in the spec's words: the line starts with
`<digits>.<digits>.<digits>.<digits>` followed by one-or-more whitespace
characters, anchored at the start of the line. -/
def SpecAddrPrefix (l : Str) : Prop :=
  ∃ d1 d2 d3 d4 ws rest, IsDigitStr d1 ∧ IsDigitStr d2 ∧ IsDigitStr d3 ∧ IsDigitStr d4 ∧
    IsSpaceStr ws ∧ l = d1 ++ '.' :: (d2 ++ '.' :: (d3 ++ '.' :: (d4 ++ ws ++ rest)))

/-- Whether a string ends with a word character. -/
def lastIsWord (u : Str) : Bool :=
  match u.getLast? with
  | some c => isWordChar c
  | none => false

/-- Whether a string starts with a word character. -/
def headIsWord (u : Str) : Bool :=
  match u.head? with
  | some c => isWordChar c
  | none => false

/-- Domain-token check in the spec's words: the domain occurs in the line as
a literal, delimited by word boundaries (a word/non-word transition on each
side, string edges counting as non-word). -/
def SpecDomainToken (domain l : Str) : Prop :=
  ∃ pre post, l = pre ++ domain ++ post ∧
    lastIsWord pre ≠ headIsWord (domain ++ post) ∧
    lastIsWord (pre ++ domain) ≠ headIsWord post

/-- Whether a string ends with exactly one newline character: its last
character is a newline and the character before it is not. -/
def endsWithOneNl (s : Str) : Bool :=
  (s.getLast? == some '\n') && !(s.dropLast.getLast? == some '\n')

/-- Decidable equality of `Except` results, for evaluating the operations on
concrete inputs. -/
instance {ε α : Type} [DecidableEq ε] [DecidableEq α] : DecidableEq (Except ε α) := fun a b =>
  match a, b with
  | .error e1, .error e2 =>
    match decEq e1 e2 with
    | isTrue h => isTrue (by rw [h])
    | isFalse h => isFalse (fun hh => h (Except.error.inj hh))
  | .ok x, .ok y =>
    match decEq x y with
    | isTrue h => isTrue (by rw [h])
    | isFalse h => isFalse (fun hh => h (Except.ok.inj hh))
  | .error _, .ok _ => isFalse (fun hh => Except.noConfusion hh)
  | .ok _, .error _ => isFalse (fun hh => Except.noConfusion hh)

/-! ### Structure of `rustLines`, `joinNl` and the join/split round trip -/

theorem splitInclusiveNl_eq_nil_iff (s : Str) : splitInclusiveNl s = [] ↔ s = [] := by
  constructor
  · intro h
    cases s with
    | nil => rfl
    | cons c cs =>
      exfalso
      simp only [splitInclusiveNl] at h
      split at h
      · exact List.noConfusion h
      · split at h <;> exact List.noConfusion h
  · intro h; subst h; rfl

theorem splitInclusiveNl_append_nl (l r : Str) (h : '\n' ∉ l) :
    splitInclusiveNl (l ++ '\n' :: r) = (l ++ ['\n']) :: splitInclusiveNl r := by
  induction l with
  | nil => simp [splitInclusiveNl]
  | cons c cs ih =>
    have hc : c ≠ '\n' := fun hh => h (hh ▸ List.mem_cons_self c cs)
    have hcs : '\n' ∉ cs := fun hh => h (List.mem_cons_of_mem _ hh)
    simp only [List.cons_append, splitInclusiveNl, if_neg hc, List.append_eq, ih hcs]

theorem splitInclusiveNl_no_nl (l : Str) (h : '\n' ∉ l) (hne : l ≠ []) :
    splitInclusiveNl l = [l] := by
  induction l with
  | nil => exact absurd rfl hne
  | cons c cs ih =>
    have hc : c ≠ '\n' := fun hh => h (hh ▸ List.mem_cons_self c cs)
    by_cases hcs : cs = []
    · subst hcs; simp [splitInclusiveNl, hc]
    · simp only [splitInclusiveNl, if_neg hc, ih (fun hh => h (List.mem_cons_of_mem _ hh)) hcs]

theorem stripSuffix1_concat (c : Char) (l : Str) : stripSuffix1 c (l ++ [c]) = some l := by
  simp [stripSuffix1, List.getLast?_concat, List.dropLast_concat]

theorem stripSuffix1_of_getLast_ne (c : Char) (l : Str) (h : l.getLast? ≠ some c) :
    stripSuffix1 c l = none := by
  simp [stripSuffix1, h]

theorem linesMap_concat_nl (l : Str) (h : l.getLast? ≠ some '\r') :
    linesMap (l ++ ['\n']) = l := by
  simp [linesMap, stripSuffix1_concat, stripSuffix1_of_getLast_ne _ _ h]

theorem linesMap_of_getLast_ne_nl (l : Str) (h : l.getLast? ≠ some '\n') :
    linesMap l = l := by
  simp [linesMap, stripSuffix1_of_getLast_ne _ _ h]

theorem rustLines_nil : rustLines [] = [] := rfl

theorem rustLines_eq_nil_iff (s : Str) : rustLines s = [] ↔ s = [] := by
  unfold rustLines
  rw [List.map_eq_nil_iff, splitInclusiveNl_eq_nil_iff]

theorem splitInclusiveNl_seg (s : Str) :
    ∀ seg ∈ splitInclusiveNl s, seg ≠ [] ∧ ∀ c ∈ seg.dropLast, c ≠ '\n' := by
  induction s with
  | nil => intro seg h; exact absurd h (by simp [splitInclusiveNl])
  | cons c cs ih =>
    intro seg hseg
    simp only [splitInclusiveNl] at hseg
    by_cases hc : c = '\n'
    · rw [if_pos hc] at hseg
      rcases List.mem_cons.mp hseg with h | h
      · subst h; exact ⟨by simp, by simp⟩
      · exact ih _ h
    · rw [if_neg hc] at hseg
      cases hrec : splitInclusiveNl cs with
      | nil =>
        rw [hrec] at hseg
        have hseg' : seg = [c] := by simpa using hseg
        subst hseg'
        exact ⟨by simp, by simp⟩
      | cons hd tl =>
        rw [hrec] at hseg
        rcases List.mem_cons.mp hseg with h | h
        · subst h
          obtain ⟨hne, hnl⟩ := ih hd (by rw [hrec]; exact List.mem_cons_self hd tl)
          refine ⟨by simp, ?_⟩
          intro x hx
          rw [List.dropLast_cons_of_ne_nil hne] at hx
          rcases List.mem_cons.mp hx with h1 | h1
          · subst h1; exact hc
          · exact hnl x h1
        · exact ih _ (by rw [hrec]; exact List.mem_cons_of_mem _ h)

theorem mem_of_getLast_some {α : Type} (l : List α) (a : α) (h : l.getLast? = some a) :
    a ∈ l := by
  cases l with
  | nil => exact absurd h (by simp)
  | cons x xs =>
    have hne : x :: xs ≠ [] := by simp
    rw [List.getLast?_eq_getLast _ hne] at h
    have := List.getLast_mem hne
    rwa [Option.some.inj h] at this

theorem no_nl_rustLines (s : Str) : ∀ l ∈ rustLines s, '\n' ∉ l := by
  intro l hl hmem
  obtain ⟨seg, hseg, hmap⟩ := List.mem_map.mp hl
  obtain ⟨hne, hnl⟩ := splitInclusiveNl_seg s seg hseg
  subst hmap
  revert hmem
  simp only [linesMap, stripSuffix1]
  by_cases h1 : seg.getLast? = some '\n'
  · simp only [if_pos h1]
    by_cases h2 : seg.dropLast.getLast? = some '\r'
    · simp only [if_pos h2]
      intro hmem
      exact hnl _ (List.dropLast_subset _ hmem) rfl
    · simp only [if_neg h2]
      intro hmem
      exact hnl _ hmem rfl
  · simp only [if_neg h1]
    intro hmem
    rw [← List.dropLast_append_getLast hne] at hmem
    rcases List.mem_append.mp hmem with h | h
    · exact hnl _ h rfl
    · have hh : seg.getLast hne = '\n' := by
        have := by simpa using h
        exact this.symm
      exact h1 (hh ▸ List.getLast?_eq_getLast seg hne)

theorem getLast_ne_nl_of_mem_rustLines (s : Str) (l : Str) (hl : l ∈ rustLines s) :
    l.getLast? ≠ some '\n' := by
  intro h
  exact no_nl_rustLines s l hl (mem_of_getLast_some l '\n' h)

theorem rustLines_joinNl (ls : List Str) (t : Str)
    (hnl : ∀ l ∈ ls, '\n' ∉ l) (hcr : ∀ l ∈ ls, l.getLast? ≠ some '\r')
    (hshape : (t = ['\n'] ∧ ls ≠ []) ∨ (t = [] ∧ ls.getLast? ≠ some ([] : Str))) :
    rustLines (joinNl ls ++ t) = ls := by
  induction ls with
  | nil =>
    rcases hshape with ⟨_, hne⟩ | ⟨ht, _⟩
    · exact absurd rfl hne
    · subst ht; rfl
  | cons l ls ih =>
    cases ls with
    | nil =>
      rcases hshape with ⟨ht, _⟩ | ⟨ht, hlast⟩
      · subst ht
        show rustLines (l ++ ['\n']) = [l]
        unfold rustLines
        rw [show l ++ ['\n'] = l ++ '\n' :: [] from rfl,
          splitInclusiveNl_append_nl _ _ (hnl l (by simp))]
        simp [splitInclusiveNl, linesMap_concat_nl _ (hcr l (by simp))]
      · subst ht
        have hlne : l ≠ [] := by intro h; exact hlast (by simp [h])
        show rustLines (l ++ []) = [l]
        rw [List.append_nil]
        unfold rustLines
        rw [splitInclusiveNl_no_nl l (hnl l (by simp)) hlne]
        have hnlast : l.getLast? ≠ some '\n' := by
          intro h; exact hnl l (by simp) (mem_of_getLast_some l '\n' h)
        simp [linesMap_of_getLast_ne_nl l hnlast]
    | cons l2 ls2 =>
      show rustLines ((l ++ '\n' :: joinNl (l2 :: ls2)) ++ t) = l :: l2 :: ls2
      rw [List.append_assoc, List.cons_append]
      unfold rustLines
      rw [splitInclusiveNl_append_nl _ _ (hnl l (by simp)),
        List.map_cons, linesMap_concat_nl _ (hcr l (by simp))]
      have ihr : rustLines (joinNl (l2 :: ls2) ++ t) = l2 :: ls2 := by
        apply ih
        · intro x hx; exact hnl x (List.mem_cons_of_mem _ hx)
        · intro x hx; exact hcr x (List.mem_cons_of_mem _ hx)
        · rcases hshape with ⟨ht, _⟩ | ⟨ht, hlast⟩
          · exact Or.inl ⟨ht, by simp⟩
          · refine Or.inr ⟨ht, ?_⟩
            rwa [List.getLast?_cons_cons] at hlast
      unfold rustLines at ihr
      rw [ihr]

theorem joinNl_ne_nil_and_getLast (ls : List Str) (l : Str)
    (hl : ls.getLast? = some l) (hne : l ≠ []) :
    joinNl ls ≠ [] ∧ (joinNl ls).getLast? = l.getLast? := by
  induction ls with
  | nil => exact absurd hl (by simp)
  | cons a ls ih =>
    cases ls with
    | nil =>
      have ha : a = l := by simpa using hl
      subst ha
      exact ⟨hne, rfl⟩
    | cons b ls2 =>
      rw [List.getLast?_cons_cons] at hl
      obtain ⟨hJne, hJlast⟩ := ih hl
      constructor
      · show a ++ '\n' :: joinNl (b :: ls2) ≠ []
        simp
      · show (a ++ '\n' :: joinNl (b :: ls2)).getLast? = l.getLast?
        rw [List.getLast?_append]
        have hcons : ('\n' :: joinNl (b :: ls2)).getLast? = (joinNl (b :: ls2)).getLast? := by
          cases hJ : joinNl (b :: ls2) with
          | nil => exact absurd hJ hJne
          | cons x xs => rw [List.getLast?_cons_cons]
        rw [hcons, hJlast]
        cases hll : l.getLast? with
        | none =>
          exfalso
          have := List.getLast?_isSome.mpr hne
          rw [hll] at this
          exact Bool.noConfusion this
        | some c => rw [Option.or_some]

theorem getLast?_set {α : Type} (ls : List α) (i : Nat) (x : α) (h : i < ls.length) :
    (ls.set i x).getLast? = if i + 1 = ls.length then some x else ls.getLast? := by
  rw [List.getLast?_eq_getElem?, List.getLast?_eq_getElem?, List.length_set]
  by_cases he : i + 1 = ls.length
  · rw [if_pos he, List.getElem?_set]
    have h1 : i = ls.length - 1 := by omega
    have h2 : ls ≠ [] := by intro hh; subst hh; simp at h
    simp [h1, h, h2]
  · rw [if_neg he, List.getElem?_set]
    have h1 : i ≠ ls.length - 1 := by omega
    rw [if_neg h1]

/-! ### Characterization of the update loop -/

theorem replaceFirst_eq_none_iff (domain ip now : Str) (ls : List Str) :
    replaceFirst domain ip now ls = none ↔ ∀ l ∈ ls, lineMatches domain l = false := by
  induction ls with
  | nil => simp [replaceFirst]
  | cons a ls ih =>
    simp only [replaceFirst]
    by_cases ha : lineMatches domain a = true
    · simp [ha]
    · have ha' : lineMatches domain a = false := by
        cases hb : lineMatches domain a
        · rfl
        · exact absurd hb ha
      rw [if_neg ha]
      cases hrec : replaceFirst domain ip now ls with
      | none =>
        simp only [List.mem_cons]
        constructor
        · intro _ l hl
          rcases hl with rfl | hl
          · exact ha'
          · exact (ih.mp hrec) l hl
        · intro _; trivial
      | some tl =>
        simp only [List.mem_cons]
        constructor
        · intro hcontr; exact absurd hcontr (by simp)
        · intro hall
          exfalso
          have : replaceFirst domain ip now ls = none :=
            ih.mpr (fun l hl => hall l (Or.inr hl))
          rw [this] at hrec
          exact Option.noConfusion hrec

theorem replaceFirst_of_first (domain ip now : Str) (ls : List Str) (i : Nat) (l : Str)
    (hi : ls[i]? = some l) (hm : lineMatches domain l = true)
    (hmin : ∀ j, j < i → ∀ lj, ls[j]? = some lj → lineMatches domain lj = false) :
    replaceFirst domain ip now ls = some (ls.set i (updatedLine ip domain now)) := by
  induction ls generalizing i with
  | nil => exact absurd hi (by simp)
  | cons a ls ih =>
    cases i with
    | zero =>
      have ha : a = l := by simpa using hi
      subst ha
      simp [replaceFirst, hm]
    | succ k =>
      have ha : lineMatches domain a = false := hmin 0 (Nat.succ_pos k) a List.getElem?_cons_zero
      have hane : ¬ lineMatches domain a = true := by rw [ha]; exact Bool.false_ne_true
      simp only [replaceFirst, if_neg hane]
      rw [ih k (by simpa using hi)
        (fun j hj lj hget => hmin (j + 1) (by omega) lj (by simpa using hget))]
      rfl

theorem replaceFirst_some_elim (domain ip now : Str) (ls ls2 : List Str)
    (h : replaceFirst domain ip now ls = some ls2) :
    ∃ i l, ls[i]? = some l ∧ lineMatches domain l = true ∧
      (∀ j, j < i → ∀ lj, ls[j]? = some lj → lineMatches domain lj = false) ∧
      ls2 = ls.set i (updatedLine ip domain now) := by
  induction ls generalizing ls2 with
  | nil => exact absurd h (by simp [replaceFirst])
  | cons a ls ih =>
    by_cases ha : lineMatches domain a = true
    · refine ⟨0, a, List.getElem?_cons_zero, ha, fun j hj => absurd hj (Nat.not_lt_zero j), ?_⟩
      have : some (updatedLine ip domain now :: ls) = some ls2 := by
        rw [← h]; simp [replaceFirst, ha]
      rw [← Option.some.inj this]
      rfl
    · have ha' : lineMatches domain a = false := by
        cases hb : lineMatches domain a
        · rfl
        · exact absurd hb ha
      simp only [replaceFirst, if_neg ha] at h
      cases hrec : replaceFirst domain ip now ls with
      | none => rw [hrec] at h; exact absurd h (by simp)
      | some tl =>
        rw [hrec] at h
        obtain ⟨i, l, h1, h2, h3, h4⟩ := ih tl hrec
        refine ⟨i + 1, l, by simpa using h1, h2, ?_, ?_⟩
        · intro j hj lj hget
          cases j with
          | zero =>
            have : a = lj := by simpa using hget
            subst this; exact ha'
          | succ k => exact h3 k (by omega) lj (by simpa using hget)
        · have hh : a :: tl = ls2 := Option.some.inj h
          rw [← hh, h4]
          rfl

/-! ### The address-prefix regex agrees with the spec's description -/

theorem takeWhile_dropWhile_append (p : Char → Bool) (a : Str) (b : Char) (r : Str)
    (ha : ∀ c ∈ a, p c = true) (hb : p b = false) :
    (a ++ b :: r).takeWhile p = a ∧ (a ++ b :: r).dropWhile p = b :: r := by
  induction a with
  | nil => simp [List.takeWhile_cons, List.dropWhile_cons, hb]
  | cons x a ih =>
    have hx := ha x (List.mem_cons_self x a)
    have ihr := ih (fun c hc => ha c (List.mem_cons_of_mem _ hc))
    simp [List.takeWhile_cons, List.dropWhile_cons, hx, ihr.1, ihr.2]

theorem not_digit_of_posixSpace (c : Char) (h : isPosixSpace c = true) :
    c.isDigit = false := by
  simp only [isPosixSpace, Bool.or_eq_true, beq_iff_eq] at h
  rcases h with ((((rfl | rfl) | rfl) | rfl) | rfl) | rfl <;> decide

theorem digitsThenDot_eq_some (l r : Str) :
    digitsThenDot l = some r ↔ ∃ d, IsDigitStr d ∧ l = d ++ '.' :: r := by
  constructor
  · intro h
    unfold digitsThenDot at h
    by_cases he : l.takeWhile Char.isDigit = []
    · rw [if_pos he] at h; exact absurd h (by simp)
    · rw [if_neg he] at h
      split at h
      · rename_i r2 hd
        have hr := Option.some.inj h
        refine ⟨l.takeWhile Char.isDigit,
          ⟨he, fun c hc => List.mem_takeWhile_imp hc⟩, ?_⟩
        rw [← hr, ← hd, List.takeWhile_append_dropWhile]
      · exact absurd h (by simp)
  · rintro ⟨d, ⟨hne, hd⟩, rfl⟩
    obtain ⟨ht, hdr⟩ := takeWhile_dropWhile_append Char.isDigit d '.' r hd (by decide)
    unfold digitsThenDot
    rw [ht, hdr, if_neg hne]
    rfl

theorem digitsThenSpace_eq_true (l : Str) :
    digitsThenSpace l = true ↔
      ∃ d c rest, IsDigitStr d ∧ isPosixSpace c = true ∧ l = d ++ c :: rest := by
  constructor
  · intro h
    unfold digitsThenSpace at h
    by_cases he : l.takeWhile Char.isDigit = []
    · rw [if_pos he] at h; exact absurd h (by simp)
    · rw [if_neg he] at h
      cases hd : l.dropWhile Char.isDigit with
      | nil => rw [hd] at h; exact absurd h (by simp)
      | cons c cs =>
        rw [hd] at h
        refine ⟨l.takeWhile Char.isDigit, c, cs,
          ⟨he, fun x hx => List.mem_takeWhile_imp hx⟩, h, ?_⟩
        rw [← hd, List.takeWhile_append_dropWhile]
  · rintro ⟨d, c, rest, ⟨hne, hd⟩, hc, rfl⟩
    obtain ⟨ht, hdr⟩ := takeWhile_dropWhile_append Char.isDigit d c rest hd
      (not_digit_of_posixSpace c hc)
    unfold digitsThenSpace
    rw [ht, hdr, if_neg hne]
    exact hc

theorem ipRegexMatch_iff (l : Str) : ipRegexMatch l = true ↔ SpecAddrPrefix l := by
  constructor
  · intro h
    unfold ipRegexMatch at h
    split at h
    · exact absurd h (by simp)
    · rename_i r1 h1
      split at h
      · exact absurd h (by simp)
      · rename_i r2 h2
        split at h
        · exact absurd h (by simp)
        · rename_i r3 h3
          obtain ⟨d1, hd1, he1⟩ := (digitsThenDot_eq_some l r1).mp h1
          obtain ⟨d2, hd2, he2⟩ := (digitsThenDot_eq_some r1 r2).mp h2
          obtain ⟨d3, hd3, he3⟩ := (digitsThenDot_eq_some r2 r3).mp h3
          obtain ⟨d4, c, rest, hd4, hc, he4⟩ := (digitsThenSpace_eq_true r3).mp h
          refine ⟨d1, d2, d3, d4, [c], rest, hd1, hd2, hd3, hd4,
            ⟨by simp, by simpa using hc⟩, ?_⟩
          rw [he1, he2, he3, he4]
          simp
  · rintro ⟨d1, d2, d3, d4, ws, rest, hd1, hd2, hd3, hd4, ⟨hwne, hws⟩, rfl⟩
    cases ws with
    | nil => exact absurd rfl hwne
    | cons w ws2 =>
      have hw : isPosixSpace w = true := hws w (List.mem_cons_self w ws2)
      unfold ipRegexMatch
      simp only [(digitsThenDot_eq_some _ _).mpr ⟨d1, hd1, rfl⟩,
        (digitsThenDot_eq_some _ _).mpr ⟨d2, hd2, rfl⟩,
        (digitsThenDot_eq_some _ _).mpr ⟨d3, hd3, rfl⟩]
      exact (digitsThenSpace_eq_true _).mpr ⟨d4, w, ws2 ++ rest, hd4, hw, by simp⟩

/-! ### The domain-token regex agrees with the spec's description -/

theorem isPrefixOf_eq_true (a b : Str) : a.isPrefixOf b = true ↔ ∃ t, b = a ++ t := by
  induction a generalizing b with
  | nil => simp [List.isPrefixOf]
  | cons x a ih =>
    cases b with
    | nil => simp [List.isPrefixOf]
    | cons y b =>
      simp only [List.isPrefixOf, Bool.and_eq_true, beq_iff_eq, ih]
      constructor
      · rintro ⟨rfl, t, rfl⟩; exact ⟨t, rfl⟩
      · rintro ⟨t, ht⟩
        have h1 : y = x := (List.cons.inj ht).1
        have h2 : b = a ++ t := (List.cons.inj ht).2
        exact ⟨h1.symm, t, h2⟩

theorem wordAt_eq_head (a b : Str) : wordAt (a ++ b) a.length = headIsWord b := by
  unfold wordAt headIsWord
  rw [List.getElem?_append_right (Nat.le_refl _), Nat.sub_self, ← List.head?_eq_getElem?]

theorem wordAt_prev_eq_last (a b : Str) :
    (if a.length = 0 then false else wordAt (a ++ b) (a.length - 1)) = lastIsWord a := by
  cases ha : a with
  | nil => rfl
  | cons x xs =>
    rw [if_neg (by simp)]
    unfold wordAt lastIsWord
    have hlt : (x :: xs).length - 1 < (x :: xs).length := by simp
    rw [List.getElem?_append, if_pos hlt, ← List.getLast?_eq_getElem?]

theorem boundaryAt_append_left (a b : Str) :
    boundaryAt (a ++ b) a.length = (lastIsWord a != headIsWord b) := by
  unfold boundaryAt
  rw [wordAt_eq_head, wordAt_prev_eq_last]

theorem domainTokenMatch_iff (domain l : Str) :
    domainTokenMatch domain l = true ↔ SpecDomainToken domain l := by
  unfold domainTokenMatch SpecDomainToken
  rw [List.any_eq_true]
  constructor
  · rintro ⟨i, hi, hcond⟩
    rw [List.mem_range] at hi
    have hsplit : domain.isPrefixOf (l.drop i) = true ∧
        boundaryAt l i = true ∧ boundaryAt l (i + domain.length) = true := by
      simpa [Bool.and_eq_true, and_assoc] using hcond
    obtain ⟨hp, h1, h2⟩ := hsplit
    obtain ⟨post, hpost⟩ := (isPrefixOf_eq_true _ _).mp hp
    set pre := l.take i with hpre
    have hlen : pre.length = i := by
      rw [hpre, List.length_take]; omega
    have hl : l = pre ++ (domain ++ post) := by
      rw [hpre, ← hpost, List.take_append_drop]
    refine ⟨pre, post, by rw [List.append_assoc]; exact hl, ?_, ?_⟩
    · rw [hl, ← hlen, boundaryAt_append_left] at h1
      exact bne_iff_ne.mp h1
    · have hl2 : l = (pre ++ domain) ++ post := by
        rw [List.append_assoc]; exact hl
      have hlen2 : (pre ++ domain).length = i + domain.length := by
        rw [List.length_append, hlen]
      rw [hl2, ← hlen2, boundaryAt_append_left] at h2
      exact bne_iff_ne.mp h2
  · rintro ⟨pre, post, rfl, hb1, hb2⟩
    refine ⟨pre.length, ?_, ?_⟩
    · rw [List.mem_range]
      simp only [List.append_assoc, List.length_append]
      omega
    · have hdrop : (pre ++ domain ++ post).drop pre.length = domain ++ post := by
        rw [List.append_assoc, List.drop_left]
      have hp : domain.isPrefixOf ((pre ++ domain ++ post).drop pre.length) = true := by
        rw [hdrop]
        exact (isPrefixOf_eq_true _ _).mpr ⟨post, rfl⟩
      have h1 : boundaryAt (pre ++ domain ++ post) pre.length = true := by
        rw [List.append_assoc, boundaryAt_append_left]
        exact bne_iff_ne.mpr hb1
      have h2 : boundaryAt (pre ++ domain ++ post) (pre.length + domain.length) = true := by
        have hlen2 : (pre ++ domain).length = pre.length + domain.length :=
          List.length_append pre domain
        rw [← hlen2, boundaryAt_append_left]
        exact bne_iff_ne.mpr hb2
      rw [Bool.and_eq_true, Bool.and_eq_true]
      exact ⟨⟨hp, h1⟩, h2⟩

theorem containsSeq_iff (needle l : Str) :
    containsSeq needle l = true ↔ ∃ pre post, l = pre ++ needle ++ post := by
  unfold containsSeq
  rw [List.any_eq_true]
  constructor
  · rintro ⟨i, hi, hp⟩
    rw [List.mem_range] at hi
    obtain ⟨post, hpost⟩ := (isPrefixOf_eq_true _ _).mp hp
    refine ⟨l.take i, post, ?_⟩
    rw [List.append_assoc, ← hpost, List.take_append_drop]
  · rintro ⟨pre, post, rfl⟩
    refine ⟨pre.length, ?_, ?_⟩
    · rw [List.mem_range]
      simp only [List.append_assoc, List.length_append]
      omega
    · apply (isPrefixOf_eq_true _ _).mpr
      exact ⟨post, by rw [List.append_assoc, List.drop_left]⟩

/-! ### Last characters of formatted lines and of the last parsed line -/

theorem eq_nil_of_getLast_none {α : Type} (l : List α) (h : l.getLast? = none) : l = [] := by
  by_contra hne
  have := List.getLast?_isSome.mpr hne
  rw [h] at this
  exact Bool.noConfusion this

theorem getLast?_append_ne_nil (a b : Str) (hb : b ≠ []) :
    (a ++ b).getLast? = b.getLast? := by
  rw [List.getLast?_append]
  cases hx : b.getLast? with
  | none => exact absurd (eq_nil_of_getLast_none b hx) hb
  | some c => rw [Option.or_some]

theorem getLast?_cons_ne_nil (x : Char) (l : Str) (hl : l ≠ []) :
    (x :: l).getLast? = l.getLast? := by
  cases l with
  | nil => exact absurd rfl hl
  | cons y ys => exact List.getLast?_cons_cons

theorem updatedLine_getLast (ip domain now : Str) :
    (updatedLine ip domain now).getLast? = now.getLast?.or (some ' ') := by
  unfold updatedLine
  rw [List.getLast?_append, getLast?_append_ne_nil _ _ (by decide),
    show ("# updated by hostm ".toList : Str).getLast? = some ' ' by decide]

theorem createdLine_getLast (ip domain now : Str) :
    (createdLine ip domain now).getLast? = now.getLast?.or (some ' ') := by
  unfold createdLine
  rw [List.getLast?_append, getLast?_append_ne_nil _ _ (by decide),
    show ("# created by hostm ".toList : Str).getLast? = some ' ' by decide]

theorem updatedLine_getLast_ne (ip domain now : Str) (c : Char) (hc : c ≠ ' ')
    (hn : now.getLast? ≠ some c) : (updatedLine ip domain now).getLast? ≠ some c := by
  rw [updatedLine_getLast]
  cases hx : now.getLast? with
  | none => intro h; exact hc (Option.some.inj h).symm
  | some d =>
    rw [Option.or_some]
    intro h
    rw [← h] at hn
    exact hn hx

theorem createdLine_getLast_ne (ip domain now : Str) (c : Char) (hc : c ≠ ' ')
    (hn : now.getLast? ≠ some c) : (createdLine ip domain now).getLast? ≠ some c := by
  rw [createdLine_getLast]
  cases hx : now.getLast? with
  | none => intro h; exact hc (Option.some.inj h).symm
  | some d =>
    rw [Option.or_some]
    intro h
    rw [← h] at hn
    exact hn hx

theorem updatedLine_ne_nil (ip domain now : Str) : updatedLine ip domain now ≠ [] := by
  simp [updatedLine]

theorem createdLine_ne_nil (ip domain now : Str) : createdLine ip domain now ≠ [] := by
  simp [createdLine]

theorem updatedLine_no_nl (ip domain now : Str) (hip : '\n' ∉ ip) (hd : '\n' ∉ domain)
    (hn : '\n' ∉ now) : '\n' ∉ updatedLine ip domain now := by
  unfold updatedLine
  intro h
  simp only [List.mem_append] at h
  rcases h with ((((h | h) | h) | h) | h) | h
  · exact hip h
  · exact absurd h (by decide)
  · exact hd h
  · exact absurd h (by decide)
  · exact absurd h (by decide)
  · exact hn h

theorem createdLine_no_nl (ip domain now : Str) (hip : '\n' ∉ ip) (hd : '\n' ∉ domain)
    (hn : '\n' ∉ now) : '\n' ∉ createdLine ip domain now := by
  unfold createdLine
  intro h
  simp only [List.mem_append] at h
  rcases h with ((((h | h) | h) | h) | h) | h
  · exact hip h
  · exact absurd h (by decide)
  · exact hd h
  · exact absurd h (by decide)
  · exact absurd h (by decide)
  · exact hn h

theorem getLast?_cons_of_tail_ne_nil {α : Type} (x : α) (l : List α) (hl : l ≠ []) :
    (x :: l).getLast? = l.getLast? := by
  cases l with
  | nil => exact absurd rfl hl
  | cons y ys => exact List.getLast?_cons_cons

theorem splitInclusiveNl_cons (c : Char) (cs : Str) :
    splitInclusiveNl (c :: cs) =
      if c = '\n' then [c] :: splitInclusiveNl cs
      else
        match splitInclusiveNl cs with
        | [] => [[c]]
        | l :: ls => (c :: l) :: ls := rfl

theorem splitInclusiveNl_getLast (s : Str) (hne : s ≠ []) (hnl : s.getLast? ≠ some '\n') :
    ∃ seg, (splitInclusiveNl s).getLast? = some seg ∧ seg ≠ [] ∧ seg.getLast? = s.getLast? := by
  induction s with
  | nil => exact absurd rfl hne
  | cons c cs ih =>
    cases cs with
    | nil =>
      refine ⟨[c], ?_, by simp, rfl⟩
      have hc : c ≠ '\n' := fun h => hnl (by simp [h])
      simp [splitInclusiveNl, hc]
    | cons b bs =>
      have hlast : (c :: b :: bs).getLast? = (b :: bs).getLast? := List.getLast?_cons_cons
      rw [hlast] at hnl
      obtain ⟨seg, hseg, hsegne, hseglast⟩ := ih (by simp) hnl
      by_cases hc : c = '\n'
      · rw [splitInclusiveNl_cons, if_pos hc]
        refine ⟨seg, ?_, hsegne, by rw [hseglast, hlast]⟩
        rw [getLast?_cons_of_tail_ne_nil _ _ (by
          intro hh
          exact absurd ((splitInclusiveNl_eq_nil_iff _).mp hh) (by simp))]
        exact hseg
      · cases hrec : splitInclusiveNl (b :: bs) with
        | nil => exact absurd ((splitInclusiveNl_eq_nil_iff _).mp hrec) (by simp)
        | cons h t =>
          rw [splitInclusiveNl_cons, if_neg hc, hrec]
          rw [hrec] at hseg
          cases t with
          | nil =>
            have hsh : seg = h := by
              have := by simpa using hseg
              exact this.symm
            subst hsh
            refine ⟨c :: seg, by simp, by simp, ?_⟩
            rw [getLast?_cons_of_tail_ne_nil _ _ hsegne, hseglast, hlast]
          | cons t1 ts =>
            refine ⟨seg, ?_, hsegne, by rw [hseglast, hlast]⟩
            show ((c :: h) :: t1 :: ts).getLast? = some seg
            rw [List.getLast?_cons_cons]
            rw [List.getLast?_cons_cons] at hseg
            exact hseg

theorem rustLines_getLast_of_not_nl (s : Str) (hne : s ≠ []) (hnl : s.getLast? ≠ some '\n') :
    ∃ l, (rustLines s).getLast? = some l ∧ l ≠ [] ∧ l.getLast? = s.getLast? := by
  obtain ⟨seg, hseg, hsegne, hseglast⟩ := splitInclusiveNl_getLast s hne hnl
  refine ⟨seg, ?_, hsegne, hseglast⟩
  unfold rustLines
  rw [List.getLast?_map, hseg]
  simp [linesMap_of_getLast_ne_nl seg (by rw [hseglast]; exact hnl)]


/-! ### Claim theorems -/

/-- C1 (code bug): `remove_domain` is supposed to fail with a not-found
error exactly when zero lines matched, but its `found` flag is only set
inside `if verbose && matched` (main.rs lines 247-250).  On the document
`"1.2.3.4 a.com\n"` the line matches the matcher for `a.com`, yet with the
verbose flag off the operation still reports `domainNotFound`; with the
verbose flag on it removes the line as specified. -/
theorem delete_found_flag_code_bug :
    lineMatches ("a.com".toList) ("1.2.3.4 a.com".toList) = true ∧
    remove_domain ("1.2.3.4 a.com\n".toList) ("a.com".toList) false =
      .error .domainNotFound ∧
    remove_domain ("1.2.3.4 a.com\n".toList) ("a.com".toList) true =
      .ok ("\n".toList) := by
  refine ⟨by decide, by decide, by decide⟩

/-- C2 (code bug): the verbose flag is documented as pure diagnostics, and
indeed the update, create and search results are identical for both values
of the flag; but because of the `found`-flag bug in `remove_domain` the
delete outcome differs between the two verbosity settings on
`"1.2.3.4 a.com\n"` with domain `a.com`. -/
theorem verbose_noninterference_fails :
    (∀ content domain ip now : Str, ∀ v w : Bool,
        update_existing_domain content domain ip now v =
          update_existing_domain content domain ip now w) ∧
    (∀ content domain ip now : Str, ∀ v w : Bool,
        add_new_domain content domain ip now v = add_new_domain content domain ip now w) ∧
    (∀ content domain : Str, ∀ v w : Bool,
        search_run content domain v = search_run content domain w) ∧
    remove_domain ("1.2.3.4 a.com\n".toList) ("a.com".toList) true ≠
      remove_domain ("1.2.3.4 a.com\n".toList) ("a.com".toList) false := by
  refine ⟨fun _ _ _ _ _ _ => rfl, fun _ _ _ _ _ _ => rfl, fun _ _ _ _ => rfl, by decide⟩

/-- C3 (counterexample): trailing-newline handling is not literally
"exactly one newline / none".  Updating `"1.2.3.4 a.com\n\n"` (which ends
with a newline) produces output ending in two newlines, and deleting the
only record of `"a\n\n1.2.3.4 x.com"` (which ends with no newline)
produces output ending in a newline. -/
theorem trailing_newline_counterexample :
    update_existing_domain ("1.2.3.4 a.com\n\n".toList) ("a.com".toList)
        ("9.9.9.9".toList) ("T".toList) false =
      .ok ("9.9.9.9 a.com # updated by hostm T\n\n".toList) ∧
    ("1.2.3.4 a.com\n\n".toList : Str).getLast? = some '\n' ∧
    endsWithOneNl ("9.9.9.9 a.com # updated by hostm T\n\n".toList) = false ∧
    remove_domain ("a\n\n1.2.3.4 x.com".toList) ("x.com".toList) true =
      .ok ("a\n".toList) ∧
    ("a\n\n1.2.3.4 x.com".toList : Str).getLast? ≠ some '\n' ∧
    ("a\n".toList : Str).getLast? = some '\n' := by
  refine ⟨by decide, by decide, by decide, by decide, by decide, by decide⟩

/-- C7 (counterexample): a line that is not the line being deleted is not
always byte-identical in the output.  The document
`"a\r\r\n1.2.3.4 x.com\n"` parses into exactly two lines, `"a\r"` (Rust
strips only the final CRLF of the segment `"a\r\r\n"`) and
`"1.2.3.4 x.com"`; the second matches the matcher for `x.com` and the
first does not, so deleting `x.com` retains only `"a\r"`.  Yet the
rewritten content is `"a\r\n"`, whose line sequence is exactly `["a"]`:
the single untouched line reappears with its trailing carriage return
stripped, so it is not byte-identical in the output document. -/
theorem frame_lines_counterexample :
    rustLines ("a\r\r\n1.2.3.4 x.com\n".toList) =
      ["a\r".toList, "1.2.3.4 x.com".toList] ∧
    lineMatches ("x.com".toList) ("a\r".toList) = false ∧
    lineMatches ("x.com".toList) ("1.2.3.4 x.com".toList) = true ∧
    remove_domain ("a\r\r\n1.2.3.4 x.com\n".toList) ("x.com".toList) true =
      .ok ("a\r\n".toList) ∧
    rustLines ("a\r\n".toList) = ["a".toList] ∧
    ("a\r".toList : Str) ∉ rustLines ("a\r\n".toList) := by
  refine ⟨by decide, by decide, by decide, by decide, by decide, by decide⟩


/-- C4: on the first line matching both regexes, `update` replaces that
entire line with `<ip> <domain> # updated by hostm <timestamp>` and stops
(at most one line is rewritten, expressed by `List.set` at the first
matching index); it fails with a not-found error, attempting no write,
exactly when no line matches. -/
theorem update_first_match_only (content domain ip now : Str) (v : Bool) :
    ((∀ l ∈ rustLines content, lineMatches domain l = false) →
        update_run content domain ip now v = (.error .domainNotFound, [])) ∧
    (update_existing_domain content domain ip now v = .error .domainNotFound →
        ∀ l ∈ rustLines content, lineMatches domain l = false) ∧
    (∀ i l, (rustLines content)[i]? = some l → lineMatches domain l = true →
        (∀ j, j < i → ∀ lj, (rustLines content)[j]? = some lj →
          lineMatches domain lj = false) →
        update_existing_domain content domain ip now v =
          .ok (joinNl ((rustLines content).set i (updatedLine ip domain now)) ++
            trailNl content)) := by
  refine ⟨?_, ?_, ?_⟩
  · intro hall
    unfold update_run update_existing_domain
    rw [(replaceFirst_eq_none_iff domain ip now _).mpr hall]
  · intro herr l hl
    unfold update_existing_domain at herr
    cases hrf : replaceFirst domain ip now (rustLines content) with
    | none => exact (replaceFirst_eq_none_iff domain ip now _).mp hrf l hl
    | some ls2 => rw [hrf] at herr; exact absurd herr (by simp)
  · intro i l hi hm hmin
    unfold update_existing_domain
    rw [replaceFirst_of_first domain ip now _ i l hi hm hmin]

/-- Witness for C4: updating `a.com` in `"1.2.3.4 a.com\nx"` (first match at
index 0) yields the document with line 0 replaced. -/
theorem update_first_match_only_witness :
    update_existing_domain ("1.2.3.4 a.com\nx".toList) ("a.com".toList)
        ("9.9.9.9".toList) ("T".toList) false =
      .ok (joinNl ((rustLines ("1.2.3.4 a.com\nx".toList)).set 0
          (updatedLine ("9.9.9.9".toList) ("a.com".toList) ("T".toList))) ++
        trailNl ("1.2.3.4 a.com\nx".toList)) :=
  (update_first_match_only ("1.2.3.4 a.com\nx".toList) ("a.com".toList)
      ("9.9.9.9".toList) ("T".toList) false).2.2 0 ("1.2.3.4 a.com".toList)
    (by decide) (by decide) (fun j hj lj _ => absurd hj (Nat.not_lt_zero j))

/-- C6: a line counts as a mapping record for a domain exactly when both
independent checks hold: the spec's address-prefix shape (four nonempty
dot-separated digit groups then one-or-more whitespace characters, anchored
at the start) and a literal occurrence of the domain delimited by word
boundaries.  The literal occurrence reflects `regex::escape`: no domain
string can alter the matching semantics. -/
theorem matcher_refines_spec (domain l : Str) :
    lineMatches domain l = true ↔ SpecAddrPrefix l ∧ SpecDomainToken domain l := by
  unfold lineMatches
  rw [Bool.and_eq_true, ipRegexMatch_iff, domainTokenMatch_iff]

/-- C8: the search report lists exactly the lines containing the domain as a
plain substring (not via the line matcher), with their 1-based numbers and
full text; with no such line the report is empty; and the search driver
never hands anything to the writer. -/
theorem search_report_characterization (content domain : Str) (v : Bool) :
    (∀ k l, (k, l) ∈ searchReport content domain ↔
        (1 ≤ k ∧ (rustLines content)[k - 1]? = some l ∧
          ∃ pre post, l = pre ++ domain ++ post)) ∧
    ((∀ l ∈ rustLines content, ¬ ∃ pre post, l = pre ++ domain ++ post) →
        searchReport content domain = []) ∧
    (search_run content domain v).2 = [] := by
  refine ⟨?_, ?_, rfl⟩
  · intro k l
    unfold searchReport
    rw [List.mem_filterMap]
    constructor
    · rintro ⟨⟨j, l2⟩, hmem, hf⟩
      by_cases hc : containsSeq domain l2 = true
      · rw [if_pos hc] at hf
        have h1 : j + 1 = k := (Prod.mk.inj (Option.some.inj hf)).1
        have h2 : l2 = l := (Prod.mk.inj (Option.some.inj hf)).2
        subst h2
        rw [List.mem_enum_iff_getElem?] at hmem
        refine ⟨by omega, ?_, (containsSeq_iff domain l2).mp hc⟩
        rw [show k - 1 = j by omega]
        exact hmem
      · rw [if_neg hc] at hf
        exact absurd hf (by simp)
    · rintro ⟨hk, hget, hsub⟩
      refine ⟨(k - 1, l), ?_, ?_⟩
      · rw [List.mem_enum_iff_getElem?]
        exact hget
      · rw [if_pos ((containsSeq_iff domain l).mpr hsub)]
        rw [show k - 1 + 1 = k by omega]
  · intro hall
    unfold searchReport
    rw [List.filterMap_eq_nil_iff]
    intro a ha
    rw [List.mem_enum_iff_getElem?] at ha
    obtain ⟨hlt, hg⟩ := List.getElem?_eq_some.mp ha
    have hmem : a.2 ∈ rustLines content := by
      rw [← hg]
      exact List.getElem_mem hlt
    have hfalse : containsSeq domain a.2 = false := by
      cases hc : containsSeq domain a.2
      · rfl
      · exact absurd ((containsSeq_iff _ _).mp hc) (hall a.2 hmem)
    rw [if_neg (by rw [hfalse]; exact Bool.false_ne_true)]

/-- Witness for C8: searching for `a.com` finds line 1 of a document whose
first line contains it as a substring. -/
theorem search_report_characterization_witness :
    (1, "1.2.3.4 a.com".toList) ∈
      searchReport ("1.2.3.4 a.com\n5.6.7.8 b.com\n".toList) ("a.com".toList) :=
  ((search_report_characterization ("1.2.3.4 a.com\n5.6.7.8 b.com\n".toList)
      ("a.com".toList) false).1 1 ("1.2.3.4 a.com".toList)).mpr
    ⟨by decide, by decide, "1.2.3.4 ".toList, ([] : Str), by decide⟩


/-! ### Success-path decompositions of the three mutating operations -/

theorem update_ok_elim (content domain ip now : Str) (v : Bool) (out : Str)
    (h : update_existing_domain content domain ip now v = .ok out) :
    ∃ i l, (rustLines content)[i]? = some l ∧ lineMatches domain l = true ∧
      (∀ j, j < i → ∀ lj, (rustLines content)[j]? = some lj →
        lineMatches domain lj = false) ∧
      out = joinNl ((rustLines content).set i (updatedLine ip domain now)) ++
        trailNl content := by
  unfold update_existing_domain at h
  cases hrf : replaceFirst domain ip now (rustLines content) with
  | none => rw [hrf] at h; exact absurd h (by simp)
  | some ls2 =>
    rw [hrf] at h
    obtain ⟨i, l, h1, h2, h3, h4⟩ := replaceFirst_some_elim domain ip now _ ls2 hrf
    refine ⟨i, l, h1, h2, h3, ?_⟩
    rw [← Except.ok.inj h, h4]

theorem remove_ok_elim (content domain : Str) (v : Bool) (out : Str)
    (h : remove_domain content domain v = .ok out) :
    out = joinNl ((rustLines content).filter fun l => !(lineMatches domain l)) ++
      trailNl content := by
  unfold remove_domain at h
  by_cases hf : (v && (rustLines content).any fun l => lineMatches domain l) = true
  · rw [if_pos hf] at h
    exact (Except.ok.inj h).symm
  · rw [if_neg hf] at h
    exact absurd h (by simp)

theorem create_error_of_any (content domain ip now : Str) (v : Bool)
    (h : ((rustLines content).any fun l => lineMatches domain l) = true) :
    add_new_domain content domain ip now v = .error .domainAlreadyExists := by
  unfold add_new_domain
  rw [if_pos h]

theorem create_ok_of_not_any (content domain ip now : Str) (v : Bool)
    (h : ((rustLines content).any fun l => lineMatches domain l) = false) :
    add_new_domain content domain ip now v =
      .ok (joinNl (rustLines content ++ [createdLine ip domain now]) ++
        trailNl content) := by
  unfold add_new_domain
  rw [if_neg (by rw [h]; exact Bool.false_ne_true)]

/-! ### Round trips of the rewritten content through `rustLines` -/

theorem rustLines_update_roundtrip (content domain ip now : Str) (i : Nat)
    (hi : i < (rustLines content).length)
    (hcr : ∀ l ∈ rustLines content, l.getLast? ≠ some '\r')
    (hip : '\n' ∉ ip) (hdm : '\n' ∉ domain) (hnw : '\n' ∉ now)
    (hnr : now.getLast? ≠ some '\r') :
    rustLines (joinNl ((rustLines content).set i (updatedLine ip domain now)) ++
        trailNl content) =
      (rustLines content).set i (updatedLine ip domain now) := by
  have hlsne : rustLines content ≠ [] :=
    List.ne_nil_of_length_pos (Nat.lt_of_le_of_lt (Nat.zero_le i) hi)
  have hsetne : (rustLines content).set i (updatedLine ip domain now) ≠ [] := by
    apply List.ne_nil_of_length_pos
    rw [List.length_set]
    exact Nat.lt_of_le_of_lt (Nat.zero_le i) hi
  apply rustLines_joinNl
  · intro l hl
    rcases List.mem_or_eq_of_mem_set hl with hl | rfl
    · exact no_nl_rustLines content l hl
    · exact updatedLine_no_nl ip domain now hip hdm hnw
  · intro l hl
    rcases List.mem_or_eq_of_mem_set hl with hl | rfl
    · exact hcr l hl
    · exact updatedLine_getLast_ne ip domain now '\r' (by decide) hnr
  · unfold trailNl
    by_cases hend : content.getLast? = some '\n'
    · rw [if_pos hend]
      exact Or.inl ⟨rfl, hsetne⟩
    · rw [if_neg hend]
      refine Or.inr ⟨rfl, ?_⟩
      rw [getLast?_set _ _ _ hi]
      by_cases hlast : i + 1 = (rustLines content).length
      · rw [if_pos hlast]
        intro hh
        exact updatedLine_ne_nil ip domain now (Option.some.inj hh)
      · rw [if_neg hlast]
        have hcne : content ≠ [] := by
          intro hc
          rw [hc] at hlsne
          exact hlsne rustLines_nil
        obtain ⟨llast, hl1, hl2, _⟩ := rustLines_getLast_of_not_nl content hcne hend
        rw [hl1]
        intro hh
        exact hl2 (Option.some.inj hh)

theorem rustLines_create_roundtrip (content domain ip now : Str)
    (hcr : ∀ l ∈ rustLines content, l.getLast? ≠ some '\r')
    (hip : '\n' ∉ ip) (hdm : '\n' ∉ domain) (hnw : '\n' ∉ now)
    (hnr : now.getLast? ≠ some '\r') :
    rustLines (joinNl (rustLines content ++ [createdLine ip domain now]) ++
        trailNl content) =
      rustLines content ++ [createdLine ip domain now] := by
  apply rustLines_joinNl
  · intro l hl
    rcases List.mem_append.mp hl with hl | hl
    · exact no_nl_rustLines content l hl
    · rw [List.mem_singleton.mp hl]
      exact createdLine_no_nl ip domain now hip hdm hnw
  · intro l hl
    rcases List.mem_append.mp hl with hl | hl
    · exact hcr l hl
    · rw [List.mem_singleton.mp hl]
      exact createdLine_getLast_ne ip domain now '\r' (by decide) hnr
  · unfold trailNl
    by_cases hend : content.getLast? = some '\n'
    · rw [if_pos hend]
      exact Or.inl ⟨rfl, by simp⟩
    · rw [if_neg hend]
      refine Or.inr ⟨rfl, ?_⟩
      rw [List.getLast?_concat]
      intro hh
      exact createdLine_ne_nil ip domain now (Option.some.inj hh)

theorem rustLines_remove_roundtrip (content domain : Str)
    (hcr : ∀ l ∈ rustLines content, l.getLast? ≠ some '\r')
    (hk1 : ((rustLines content).filter fun l => !(lineMatches domain l)) ≠ [])
    (hk2 : ((rustLines content).filter fun l => !(lineMatches domain l)).getLast? ≠
      some ([] : Str)) :
    rustLines (joinNl ((rustLines content).filter fun l => !(lineMatches domain l)) ++
        trailNl content) =
      (rustLines content).filter fun l => !(lineMatches domain l) := by
  apply rustLines_joinNl
  · intro l hl
    exact no_nl_rustLines content l (List.mem_filter.mp hl).1
  · intro l hl
    exact hcr l (List.mem_filter.mp hl).1
  · unfold trailNl
    by_cases hend : content.getLast? = some '\n'
    · rw [if_pos hend]
      exact Or.inl ⟨rfl, hk1⟩
    · rw [if_neg hend]
      exact Or.inr ⟨rfl, hk2⟩


/-- C3 (amended): the trailing-newline convention holds in the direction the
code guarantees.  If the content ends with a newline, every mutating
operation's output ends with a newline (possibly more than one, as the
counterexample shows).  If the content does not end with a newline, Update
and Create outputs end with none (given a timestamp not ending in a
newline), and Delete's output ends with none provided the last retained
line is nonempty. -/
theorem trailing_newline_amended (content domain ip now : Str) (v : Bool)
    (hnow : now.getLast? ≠ some '\n') :
    (∀ out, update_existing_domain content domain ip now v = .ok out →
        (out.getLast? = some '\n' ↔ content.getLast? = some '\n')) ∧
    (∀ out, add_new_domain content domain ip now v = .ok out →
        (out.getLast? = some '\n' ↔ content.getLast? = some '\n')) ∧
    (∀ out, remove_domain content domain v = .ok out →
        content.getLast? = some '\n' → out.getLast? = some '\n') ∧
    (∀ out, remove_domain content domain v = .ok out →
        content.getLast? ≠ some '\n' →
        ((rustLines content).filter fun l => !(lineMatches domain l)).getLast? ≠
          some ([] : Str) →
        out.getLast? ≠ some '\n') := by
  refine ⟨?_, ?_, ?_, ?_⟩
  · intro out h
    obtain ⟨i, l, h1, h2, h3, hout⟩ := update_ok_elim content domain ip now v out h
    have hi : i < (rustLines content).length := (List.getElem?_eq_some.mp h1).1
    subst hout
    by_cases hend : content.getLast? = some '\n'
    · have htr : trailNl content = ['\n'] := by unfold trailNl; rw [if_pos hend]
      rw [htr, List.getLast?_concat]
      exact ⟨fun _ => hend, fun _ => rfl⟩
    · have htr : trailNl content = [] := by unfold trailNl; rw [if_neg hend]
      rw [htr, List.append_nil]
      have hne : (joinNl ((rustLines content).set i
          (updatedLine ip domain now))).getLast? ≠ some '\n' := by
        by_cases hlast : i + 1 = (rustLines content).length
        · have hsl : ((rustLines content).set i
              (updatedLine ip domain now)).getLast? =
              some (updatedLine ip domain now) := by
            rw [getLast?_set _ _ _ hi, if_pos hlast]
          obtain ⟨_, hj⟩ := joinNl_ne_nil_and_getLast _ _ hsl
            (updatedLine_ne_nil ip domain now)
          rw [hj]
          exact updatedLine_getLast_ne ip domain now '\n' (by decide) hnow
        · have hcne : content ≠ [] := by
            intro hc
            have : rustLines content = [] := by rw [hc]; exact rustLines_nil
            rw [this] at hi
            exact absurd hi (by simp)
          obtain ⟨llast, hl1, hl2, hl3⟩ :=
            rustLines_getLast_of_not_nl content hcne hend
          have hsl : ((rustLines content).set i
              (updatedLine ip domain now)).getLast? = some llast := by
            rw [getLast?_set _ _ _ hi, if_neg hlast]
            exact hl1
          obtain ⟨_, hj⟩ := joinNl_ne_nil_and_getLast _ _ hsl hl2
          rw [hj, hl3]
          exact hend
      exact ⟨fun hcon => absurd hcon hne, fun hcon => absurd hcon hend⟩
  · intro out h
    by_cases hany : ((rustLines content).any fun l => lineMatches domain l) = true
    · rw [create_error_of_any content domain ip now v hany] at h
      exact absurd h (by simp)
    · have hany' : ((rustLines content).any fun l => lineMatches domain l) = false := by
        cases hx : (rustLines content).any fun l => lineMatches domain l
        · rfl
        · exact absurd hx hany
      rw [create_ok_of_not_any content domain ip now v hany'] at h
      have hout := (Except.ok.inj h).symm
      subst hout
      by_cases hend : content.getLast? = some '\n'
      · have htr : trailNl content = ['\n'] := by unfold trailNl; rw [if_pos hend]
        rw [htr, List.getLast?_concat]
        exact ⟨fun _ => hend, fun _ => rfl⟩
      · have htr : trailNl content = [] := by unfold trailNl; rw [if_neg hend]
        rw [htr, List.append_nil]
        have hsl : (rustLines content ++ [createdLine ip domain now]).getLast? =
            some (createdLine ip domain now) := List.getLast?_concat _
        obtain ⟨_, hj⟩ := joinNl_ne_nil_and_getLast _ _ hsl
          (createdLine_ne_nil ip domain now)
        have hne : (joinNl (rustLines content ++
            [createdLine ip domain now])).getLast? ≠ some '\n' := by
          rw [hj]
          exact createdLine_getLast_ne ip domain now '\n' (by decide) hnow
        exact ⟨fun hcon => absurd hcon hne, fun hcon => absurd hcon hend⟩
  · intro out h hend
    have hout := remove_ok_elim content domain v out h
    subst hout
    have htr : trailNl content = ['\n'] := by unfold trailNl; rw [if_pos hend]
    rw [htr, List.getLast?_concat]
  · intro out h hend hk2
    have hout := remove_ok_elim content domain v out h
    subst hout
    have htr : trailNl content = [] := by unfold trailNl; rw [if_neg hend]
    rw [htr, List.append_nil]
    cases hk : ((rustLines content).filter fun l => !(lineMatches domain l)) with
    | nil => simp [joinNl]
    | cons a as =>
      have hkne : ((rustLines content).filter fun l => !(lineMatches domain l)) ≠ [] := by
        rw [hk]; simp
      cases hlq : ((rustLines content).filter fun l =>
          !(lineMatches domain l)).getLast? with
      | none => exact absurd (eq_nil_of_getLast_none _ hlq) hkne
      | some k =>
        have hkmem : k ∈ rustLines content :=
          (List.mem_filter.mp (mem_of_getLast_some _ k hlq)).1
        have hkne2 : k ≠ [] := by
          intro hh
          rw [hh] at hlq
          exact hk2 hlq
        obtain ⟨_, hj⟩ := joinNl_ne_nil_and_getLast _ _ hlq hkne2
        rw [← hk, hj]
        exact getLast_ne_nl_of_mem_rustLines content k hkmem

/-- Witness for C3 (amended): updating `a.com` in `"1.2.3.4 a.com\n"`
yields output ending in a newline, matching the input convention. -/
theorem trailing_newline_amended_witness :
    ("T".toList : Str).getLast? ≠ some '\n' ∧
    (("9.9.9.9 a.com # updated by hostm T\n".toList : Str).getLast? = some '\n' ↔
      ("1.2.3.4 a.com\n".toList : Str).getLast? = some '\n') :=
  ⟨by decide,
    (trailing_newline_amended ("1.2.3.4 a.com\n".toList) ("a.com".toList)
        ("9.9.9.9".toList) ("T".toList) false (by decide)).1
      ("9.9.9.9 a.com # updated by hostm T\n".toList) (by decide)⟩


/-- C5: for a non-empty domain, `create` fails with an already-exists error
and hands nothing to the writer when some line matches the matcher;
otherwise it appends exactly one new line
`<ip> <domain> # created by hostm <timestamp>` at the end of the document's
line sequence, leaving every existing line unaltered and in place (stated
for documents with no CR-ending lines and single-line arguments, so the
rewritten content parses back losslessly). -/
theorem create_appends_line (content domain ip now : Str) (v : Bool)
    (hd : domain ≠ [])
    (hcr : ∀ l ∈ rustLines content, l.getLast? ≠ some '\r')
    (hip : '\n' ∉ ip) (hdm : '\n' ∉ domain) (hnw : '\n' ∉ now)
    (hnr : now.getLast? ≠ some '\r') :
    ((∃ l, l ∈ rustLines content ∧ lineMatches domain l = true) →
        create_run content domain ip now v = (.error .domainAlreadyExists, [])) ∧
    ((∀ l ∈ rustLines content, lineMatches domain l = false) →
        ∃ out, add_new_domain content domain ip now v = .ok out ∧
          create_run content domain ip now v = (.ok (), [out]) ∧
          rustLines out = rustLines content ++ [createdLine ip domain now]) := by
  constructor
  · rintro ⟨l, hl, hm⟩
    have hany : ((rustLines content).any fun l => lineMatches domain l) = true :=
      List.any_eq_true.mpr ⟨l, hl, hm⟩
    unfold create_run
    rw [create_error_of_any content domain ip now v hany]
  · intro hall
    have hany : ((rustLines content).any fun l => lineMatches domain l) = false := by
      cases hx : (rustLines content).any fun l => lineMatches domain l
      · rfl
      · obtain ⟨l, hl, hm⟩ := List.any_eq_true.mp hx
        rw [hall l hl] at hm
        exact absurd hm (by simp)
    refine ⟨_, create_ok_of_not_any content domain ip now v hany, ?_, ?_⟩
    · unfold create_run
      rw [create_ok_of_not_any content domain ip now v hany]
    · exact rustLines_create_roundtrip content domain ip now hcr hip hdm hnw hnr

/-- Witness for C5: creating `a.com` in `"5.6.7.8 b.com\n"` appends exactly
one line at the end. -/
theorem create_appends_line_witness :
    ∃ out, add_new_domain ("5.6.7.8 b.com\n".toList) ("a.com".toList)
        ("1.2.3.4".toList) ("T".toList) false = .ok out ∧
      create_run ("5.6.7.8 b.com\n".toList) ("a.com".toList) ("1.2.3.4".toList)
        ("T".toList) false = (.ok (), [out]) ∧
      rustLines out = rustLines ("5.6.7.8 b.com\n".toList) ++
        [createdLine ("1.2.3.4".toList) ("a.com".toList) ("T".toList)] :=
  (create_appends_line ("5.6.7.8 b.com\n".toList) ("a.com".toList)
      ("1.2.3.4".toList) ("T".toList) false (by decide) (by decide) (by decide)
      (by decide) (by decide) (by decide)).2 (by decide)

/-- C7 (amended): for documents none of whose lines ends in a carriage
return, and single-line arguments, every line not actively
created/updated/deleted reappears byte-identical, at its position, in the
output's line sequence: Delete yields exactly the retained lines (provided
the retained sequence is nonempty with a nonempty last line), Update yields
the input lines with only the first matching index replaced, and Create
yields the input lines plus one appended line. -/
theorem frame_lines_amended (content domain ip now : Str) (v : Bool)
    (hcr : ∀ l ∈ rustLines content, l.getLast? ≠ some '\r')
    (hip : '\n' ∉ ip) (hdm : '\n' ∉ domain) (hnw : '\n' ∉ now)
    (hnr : now.getLast? ≠ some '\r') :
    (∀ out, remove_domain content domain v = .ok out →
        ((rustLines content).filter fun l => !(lineMatches domain l)) ≠ [] →
        ((rustLines content).filter fun l => !(lineMatches domain l)).getLast? ≠
          some ([] : Str) →
        rustLines out = (rustLines content).filter fun l => !(lineMatches domain l)) ∧
    (∀ out, update_existing_domain content domain ip now v = .ok out →
        ∃ i l, (rustLines content)[i]? = some l ∧ lineMatches domain l = true ∧
          (∀ j, j < i → ∀ lj, (rustLines content)[j]? = some lj →
            lineMatches domain lj = false) ∧
          rustLines out = (rustLines content).set i (updatedLine ip domain now)) ∧
    (∀ out, add_new_domain content domain ip now v = .ok out →
        rustLines out = rustLines content ++ [createdLine ip domain now]) := by
  refine ⟨?_, ?_, ?_⟩
  · intro out h hk1 hk2
    rw [remove_ok_elim content domain v out h]
    exact rustLines_remove_roundtrip content domain hcr hk1 hk2
  · intro out h
    obtain ⟨i, l, h1, h2, h3, hout⟩ := update_ok_elim content domain ip now v out h
    have hi := (List.getElem?_eq_some.mp h1).1
    refine ⟨i, l, h1, h2, h3, ?_⟩
    rw [hout]
    exact rustLines_update_roundtrip content domain ip now i hi hcr hip hdm hnw hnr
  · intro out h
    by_cases hany : ((rustLines content).any fun l => lineMatches domain l) = true
    · rw [create_error_of_any content domain ip now v hany] at h
      exact absurd h (by simp)
    · have hany2 : ((rustLines content).any fun l => lineMatches domain l) = false := by
        cases hx : (rustLines content).any fun l => lineMatches domain l
        · rfl
        · exact absurd hx hany
      rw [create_ok_of_not_any content domain ip now v hany2] at h
      rw [← Except.ok.inj h]
      exact rustLines_create_roundtrip content domain ip now hcr hip hdm hnw hnr

/-- Witness for C7 (amended): deleting `a.com` from
`"1.2.3.4 a.com\n5.6.7.8 b.com\n"` leaves exactly the other line. -/
theorem frame_lines_amended_witness :
    rustLines ("5.6.7.8 b.com\n".toList) =
      (rustLines ("1.2.3.4 a.com\n5.6.7.8 b.com\n".toList)).filter
        fun l => !(lineMatches ("a.com".toList) l) :=
  (frame_lines_amended ("1.2.3.4 a.com\n5.6.7.8 b.com\n".toList)
      ("a.com".toList) ("1.1.1.1".toList) ("T".toList) true (by decide)
      (by decide) (by decide) (by decide) (by decide)).1
    ("5.6.7.8 b.com\n".toList) (by decide) (by decide) (by decide)

/-- C9: if `create` is run on a document with no matching line, with an IP
argument such that the new line `<ip> <domain> # created by hostm <t>` fails
the address-prefix regex (the IP is never validated), then a subsequent
`update` or `delete` for the same domain on the resulting document fails
with a not-found error: the create-then-delete round trip can only succeed
for IP strings that, followed by the single space the writer inserts, match
the dotted-quad-then-whitespace pattern. -/
theorem create_bad_ip_roundtrip (content domain ip ip2 now now2 : Str) (v w u : Bool)
    (hno : ∀ l ∈ rustLines content, lineMatches domain l = false)
    (hcr : ∀ l ∈ rustLines content, l.getLast? ≠ some '\r')
    (hip : '\n' ∉ ip) (hdm : '\n' ∉ domain) (hnw : '\n' ∉ now)
    (hnr : now.getLast? ≠ some '\r')
    (hbad : ipRegexMatch (createdLine ip domain now) = false) :
    ∃ out, add_new_domain content domain ip now v = .ok out ∧
      update_existing_domain out domain ip2 now2 w = .error .domainNotFound ∧
      remove_domain out domain u = .error .domainNotFound := by
  have hany : ((rustLines content).any fun l => lineMatches domain l) = false := by
    cases hx : (rustLines content).any fun l => lineMatches domain l
    · rfl
    · obtain ⟨l, hl, hm⟩ := List.any_eq_true.mp hx
      rw [hno l hl] at hm
      exact absurd hm (by simp)
  have hok := create_ok_of_not_any content domain ip now v hany
  have hlines : rustLines (joinNl (rustLines content ++
      [createdLine ip domain now]) ++ trailNl content) =
      rustLines content ++ [createdLine ip domain now] :=
    rustLines_create_roundtrip content domain ip now hcr hip hdm hnw hnr
  have hallout : ∀ l ∈ rustLines (joinNl (rustLines content ++
      [createdLine ip domain now]) ++ trailNl content),
      lineMatches domain l = false := by
    rw [hlines]
    intro l hl
    rcases List.mem_append.mp hl with hl | hl
    · exact hno l hl
    · rw [List.mem_singleton.mp hl]
      unfold lineMatches
      rw [hbad]
      rfl
  refine ⟨_, hok, ?_, ?_⟩
  · unfold update_existing_domain
    rw [(replaceFirst_eq_none_iff domain ip2 now2 _).mpr hallout]
  · have hany2 : ((rustLines (joinNl (rustLines content ++
        [createdLine ip domain now]) ++ trailNl content)).any fun l =>
        lineMatches domain l) = false := by
      cases hx : (rustLines (joinNl (rustLines content ++
          [createdLine ip domain now]) ++ trailNl content)).any fun l =>
          lineMatches domain l
      · rfl
      · obtain ⟨l, hl, hm⟩ := List.any_eq_true.mp hx
        rw [hallout l hl] at hm
        exact absurd hm (by simp)
    simp only [remove_domain, hany2, Bool.and_false]
    rfl

/-- Witness for C9: creating `a.com` with the IP argument `not-an-ip`
produces a line the matcher rejects, so the follow-up update and delete for
`a.com` fail with a not-found error. -/
theorem create_bad_ip_roundtrip_witness :
    ∃ out, add_new_domain ("5.6.7.8 b.com\n".toList) ("a.com".toList)
        ("not-an-ip".toList) ("T".toList) false = .ok out ∧
      update_existing_domain out ("a.com".toList) ("7.7.7.7".toList)
        ("U".toList) false = .error .domainNotFound ∧
      remove_domain out ("a.com".toList) true = .error .domainNotFound :=
  create_bad_ip_roundtrip ("5.6.7.8 b.com\n".toList) ("a.com".toList)
    ("not-an-ip".toList) ("7.7.7.7".toList) ("T".toList) ("U".toList)
    false false true (by decide) (by decide) (by decide) (by decide)
    (by decide) (by decide) (by decide)

/-- C10: when a domain occurs inside a longer domain separated by non-word
characters (as `a.com` inside `sub.a.com` or `bad-a.com`), the matcher still
classifies the line as a record for the shorter domain, because `.` and `-`
are word boundaries; consequently `create` fails with already-exists and
`delete` (with verbose on) removes such lines, even with no record for
exactly that domain present. -/
theorem subtoken_matches (pre domain post content ip now : Str) (v : Bool)
    (hhead : headIsWord domain = true) (hlast : lastIsWord domain = true)
    (hpre : lastIsWord pre = false) (hpost : headIsWord post = false)
    (hip : ipRegexMatch (pre ++ domain ++ post) = true) :
    lineMatches domain (pre ++ domain ++ post) = true ∧
    ((pre ++ domain ++ post) ∈ rustLines content →
        add_new_domain content domain ip now v = .error .domainAlreadyExists) ∧
    ((pre ++ domain ++ post) ∈ rustLines content →
        remove_domain content domain true =
          .ok (joinNl ((rustLines content).filter fun l =>
            !(lineMatches domain l)) ++ trailNl content) ∧
        (pre ++ domain ++ post) ∉
          (rustLines content).filter fun l => !(lineMatches domain l)) := by
  have hdne : domain ≠ [] := by
    intro hh
    rw [hh] at hhead
    exact absurd hhead (by decide)
  have htok : SpecDomainToken domain (pre ++ domain ++ post) := by
    refine ⟨pre, post, rfl, ?_, ?_⟩
    · have hh : headIsWord (domain ++ post) = headIsWord domain := by
        unfold headIsWord
        cases domain with
        | nil => exact absurd rfl hdne
        | cons d ds => rfl
      rw [hh, hhead, hpre]
      exact fun hcon => Bool.noConfusion hcon
    · have hh : lastIsWord (pre ++ domain) = lastIsWord domain := by
        unfold lastIsWord
        rw [getLast?_append_ne_nil pre domain hdne]
      rw [hh, hlast, hpost]
      exact fun hcon => Bool.noConfusion hcon
  have hm : lineMatches domain (pre ++ domain ++ post) = true := by
    unfold lineMatches
    rw [hip, (domainTokenMatch_iff domain _).mpr htok]
    rfl
  refine ⟨hm, ?_, ?_⟩
  · intro hmem
    exact create_error_of_any content domain ip now v
      (List.any_eq_true.mpr ⟨_, hmem, hm⟩)
  · intro hmem
    have hany : ((rustLines content).any fun l => lineMatches domain l) = true :=
      List.any_eq_true.mpr ⟨_, hmem, hm⟩
    constructor
    · simp only [remove_domain, hany, Bool.and_self]
      rfl
    · intro hcon
      have hflt := (List.mem_filter.mp hcon).2
      rw [hm] at hflt
      exact absurd hflt (by decide)

/-- Witness for C10: `a.com` as a sub-token of `sub.a.com`; creating `a.com`
in a document containing only `1.2.3.4 sub.a.com` fails with already-exists. -/
theorem subtoken_matches_witness :
    add_new_domain ("1.2.3.4 sub.a.com\n".toList) ("a.com".toList)
        ("9.9.9.9".toList) ("T".toList) false = .error .domainAlreadyExists :=
  (subtoken_matches ("1.2.3.4 sub.".toList) ("a.com".toList) ([] : Str)
      ("1.2.3.4 sub.a.com\n".toList) ("9.9.9.9".toList) ("T".toList) false
      (by decide) (by decide) (by decide) (by decide) (by decide)).2.1 (by decide)

end Hostm
